import Mathlib

/-!
Verification of the Netflix viewing-history analysis pipeline
(`data_processing/process_netflix_data.py`, `statistical_testing/statistical_tests.py`,
`statistical_testing/statistical_analysis.py`).

Modelling conventions:
* A calendar date is encoded as the natural number `y*10000 + m*100 + d`
  (e.g. `20240325` for 2024-03-25).  For well-formed dates this encoding is
  strictly monotone in chronological order, so `pandas` timestamp comparisons
  (`start_date <= date <= end_date`) become `≤` on the codes.
* Python strings are `List Char`.
* Exact arithmetic (`ℚ`, `ℝ`) replaces floating point; IEEE `NaN` results are
  modelled as `Option.none`; division by zero follows Lean's `x / 0 = 0`
  convention.
* `pandas`/`numpy`/`scipy` are external libraries; the calendar accessors
  (`dt.year`, `dt.dayofweek`, `dt.isocalendar().week`) are modelled by the
  ISO-8601 / proleptic-Gregorian algorithms they document, and the
  statistic formulas of `scipy.stats` are modelled from their documentation.
-/

namespace Netflix

/-! ### Calendar model (the pandas date accessors used by `add_time_features`) -/

/-- Gregorian leap-year rule. -/
def isLeap (y : ℕ) : Bool := (y % 4 == 0 && y % 100 != 0) || y % 400 == 0

/-- Number of days in month `m` of year `y`. -/
def daysInMonth (y m : ℕ) : ℕ :=
  if m = 2 then (if isLeap y then 29 else 28)
  else if m = 4 ∨ m = 6 ∨ m = 9 ∨ m = 11 then 30 else 31

/-- Ordinal day of the year (1-based) of the date `(y, m, d)`. -/
def dayOfYear (y m d : ℕ) : ℕ :=
  d + ((List.range m).filter (fun k => 1 ≤ k)).foldr (fun k acc => daysInMonth y k + acc) 0

/-- Days in the proleptic Gregorian calendar strictly before year `y`. -/
def daysBeforeYear (y : ℕ) : ℕ :=
  365 * (y - 1) + (y - 1) / 4 - (y - 1) / 100 + (y - 1) / 400

/-- Rata-die day number: 0001-01-01 is day 1 (a Monday). -/
def rataDie (y m d : ℕ) : ℕ := daysBeforeYear y + dayOfYear y m d

/-- ISO weekday: Monday = 1 … Sunday = 7. -/
def isoWeekday (y m d : ℕ) : ℕ := (rataDie y m d + 6) % 7 + 1

/-- pandas `dt.dayofweek`: Monday = 0 … Sunday = 6. -/
def pdDayOfWeek (y m d : ℕ) : ℕ := isoWeekday y m d - 1

/-- Number of ISO weeks in year `y` (52, or 53 when Jan 1 is a Thursday, or
a Wednesday of a leap year). -/
def isoWeeksInYear (y : ℕ) : ℕ :=
  if isoWeekday y 1 1 = 4 ∨ (isLeap y ∧ isoWeekday y 1 1 = 3) then 53 else 52

/-- ISO-8601 week number of `(y,m,d)` (models `dt.isocalendar().week`). -/
def isoWeek (y m d : ℕ) : ℕ :=
  let w := (dayOfYear y m d + 10 - isoWeekday y m d) / 7
  if w = 0 then isoWeeksInYear (y - 1)
  else if isoWeeksInYear y < w then 1
  else w

/-- ISO-8601 week-based year of `(y,m,d)` (models `dt.isocalendar().year`). -/
def isoYear (y m d : ℕ) : ℕ :=
  let w := (dayOfYear y m d + 10 - isoWeekday y m d) / 7
  if w = 0 then y - 1
  else if isoWeeksInYear y < w then y + 1
  else y

/-- Encode a date as `y*10000 + m*100 + d`, the order-preserving code used
throughout for `pandas` timestamps. -/
def mkDate (y m d : ℕ) : ℕ := y * 10000 + m * 100 + d

/-- Calendar year of an encoded date (models `dt.year`). -/
def yearOf (c : ℕ) : ℕ := c / 10000

/-- Month of an encoded date (models `dt.month`). -/
def monthOf (c : ℕ) : ℕ := c / 100 % 100

/-- Day-of-month of an encoded date (models `dt.day`). -/
def dayOf (c : ℕ) : ℕ := c % 100

/-- Model of `dt.dayofweek` on an encoded date. -/
def dayOfWeekOf (c : ℕ) : ℕ := pdDayOfWeek (yearOf c) (monthOf c) (dayOf c)

/-- The `is_weekend` column of `add_time_features`: `day_of_week.isin([5, 6])`. -/
def isWeekendOf (c : ℕ) : Bool := dayOfWeekOf c = 5 ∨ dayOfWeekOf c = 6

/-- Model of `dt.isocalendar().week` on an encoded date; this is the `week_number`
column added by `add_time_features`. -/
def isoWeekOf (c : ℕ) : ℕ := isoWeek (yearOf c) (monthOf c) (dayOf c)

/-- ISO week-based year on an encoded date (pandas `dt.isocalendar().year`;
NOT the `year` column of `add_time_features`, which is `dt.year`). -/
def isoYearOf (c : ℕ) : ℕ := isoYear (yearOf c) (monthOf c) (dayOf c)

/-! ### Period classifier

Both `is_exam_period` functions, and the inner closure of
`add_exam_period_flag`, are the same loop
`for start, end in PERIODS: if start <= date <= end: return True` / `return False`;
only the hardcoded interval list differs. -/

/-- The classifying loop shared by all three `is_exam_period` definitions:
linear scan over `(start, end)` pairs, returning `true` on the first interval
containing `date` (inclusive bounds). -/
def is_exam_period : ℕ → List (ℕ × ℕ) → Bool
  | _, [] => false
  | date, (s, e) :: rest =>
      if s ≤ date ∧ date ≤ e then true else is_exam_period date rest

/-- The 11-interval `EXAM_PERIODS` list hardcoded in
`process_netflix_data.py` and (identically) in `statistical_tests.py`. -/
def EXAM_PERIODS : List (ℕ × ℕ) :=
  [ (mkDate 2024 3 25, mkDate 2024 3 29)
  , (mkDate 2024 4 15, mkDate 2024 4 18)
  , (mkDate 2024 4 23, mkDate 2024 4 27)
  , (mkDate 2024 5 5,  mkDate 2024 5 17)
  , (mkDate 2024 6 1,  mkDate 2024 6 7)
  , (mkDate 2024 8 1,  mkDate 2024 8 7)
  , (mkDate 2024 8 20, mkDate 2024 8 26)
  , (mkDate 2024 11 1, mkDate 2024 11 10)
  , (mkDate 2024 11 15, mkDate 2024 11 30)
  , (mkDate 2024 12 7, mkDate 2024 12 15)
  , (mkDate 2024 12 29, mkDate 2025 1 9) ]

/-- The 4-interval `exam_periods` list hardcoded inside
`statistical_analysis.py`'s `is_exam_period`. -/
def ANALYSIS_EXAM_PERIODS : List (ℕ × ℕ) :=
  [ (mkDate 2024 1 8,  mkDate 2024 1 19)
  , (mkDate 2024 5 13, mkDate 2024 5 24)
  , (mkDate 2024 8 26, mkDate 2024 9 6)
  , (mkDate 2024 12 16, mkDate 2024 12 27) ]

/-- The `is_exam_period` of `statistical_tests.py` (and the closure inside
`add_exam_period_flag` of `process_netflix_data.py`). -/
def tests_is_exam_period (date : ℕ) : Bool := is_exam_period date EXAM_PERIODS

/-- The `is_exam_period` of `statistical_analysis.py`. -/
def analysis_is_exam_period (date : ℕ) : Bool :=
  is_exam_period date ANALYSIS_EXAM_PERIODS

/-! ### Events and aggregation (`calculate_viewing_metrics`,
`calculate_binge_watching_metrics`)

A row of the cleaned dataframe: its `Date`, its raw `Title`, and the
`show_name` extracted from the title by `clean_data`.  The aggregation
functions below are written over an arbitrary event list, as the grouping
logic itself does not depend on the cleaning filter. -/

structure Event where
  date : ℕ
  title : List Char
  show_name : List Char
deriving DecidableEq

/-- Lexicographic comparison of strings (used only to reproduce pandas'
sorted group keys). -/
def charListLe : List Char → List Char → Bool
  | [], _ => true
  | _ :: _, [] => false
  | a :: s, b :: t => if a = b then charListLe s t else decide (a < b)

/-- The distinct group keys of a `pandas` `groupby`: duplicates removed,
sorted ascending by the given comparison. -/
def groupbyKeys {κ : Type} [DecidableEq κ] (le : κ → κ → Bool) (ks : List κ) :
    List κ :=
  (ks.dedup).insertionSort (fun a b => le a b = true)

/-- The grouping `df.groupby('Date').agg({'Title': 'count', 'show_name': 'nunique'})` of
`calculate_viewing_metrics`: one row `(Date, daily_views, unique_shows)` per
distinct date. -/
def dailyCounts (events : List Event) : List (ℕ × ℕ × ℕ) :=
  (groupbyKeys (fun a b => decide (a ≤ b)) (events.map (·.date))).map
    (fun d =>
      (d, (events.filter (fun e => e.date = d)).length,
          ((events.filter (fun e => e.date = d)).map (·.show_name)).dedup.length))

/-- The grouping `df.groupby(['year', 'week_number']).size()` of
`calculate_viewing_metrics`, with `year = dt.year` (calendar year) and
`week_number = dt.isocalendar().week` as set by `add_time_features`. -/
def weeklyCounts (events : List Event) : List ((ℕ × ℕ) × ℕ) :=
  (groupbyKeys
      (fun a b => decide (a.1 < b.1 ∨ (a.1 = b.1 ∧ a.2 ≤ b.2)))
      (events.map (fun e => (yearOf e.date, isoWeekOf e.date)))).map
    (fun k =>
      (k, (events.filter (fun e => (yearOf e.date, isoWeekOf e.date) = k)).length))

/-- The grouping `df.groupby(['Date', 'show_name']).size()` of
`calculate_binge_watching_metrics`. -/
def daily_show_counts (events : List Event) : List ((ℕ × List Char) × ℕ) :=
  (groupbyKeys
      (fun a b => if a.1 = b.1 then charListLe a.2 b.2 else decide (a.1 < b.1))
      (events.map (fun e => (e.date, e.show_name)))).map
    (fun k =>
      (k, (events.filter (fun e => (e.date, e.show_name) = k)).length))

/-- The filter `daily_show_counts[daily_show_counts['episodes_watched'] >= 3]`: the
binge sessions (≥ 3 episodes of one show on one day). -/
def binge_sessions (events : List Event) : List ((ℕ × List Char) × ℕ) :=
  (daily_show_counts events).filter (fun r => 3 ≤ r.2)

/-- The daily rows as re-loaded by `statistical_analysis.load_processed_data`,
which re-derives the exam-period and weekend flags from the row's date
(`daily_counts['Date'].apply(is_exam_period)` with the 4-interval list, and
`dt.dayofweek.isin([5, 6])`). -/
def loadedDailyRows (rows : List (ℕ × ℕ × ℕ)) : List ((ℕ × ℕ × ℕ) × Bool × Bool) :=
  rows.map (fun r => (r, analysis_is_exam_period r.1, isWeekendOf r.1))

/-! ### The t-test of `statistical_analysis.perform_ttest_exam_periods`

IEEE `NaN` is modelled as `Option.none`; the externally computed
`scipy.stats.ttest_ind` statistic and p-value are a parameter. -/

/-- Model of `np.mean` over exact rationals (`[].sum / 0 = 0` stands in for the
guarded empty case, which the code never reaches unguarded). -/
def npMean (l : List ℚ) : ℚ := l.sum / l.length

/-- Model of `np.var(l, ddof=1)`: sample variance. -/
def npVarS (l : List ℚ) : ℚ :=
  (l.map (fun x => (x - npMean l) ^ 2)).sum / ((l.length : ℚ) - 1)

/-- Model of `np.var(l)` with the default `ddof=0`: population variance. -/
def npVarP (l : List ℚ) : ℚ :=
  (l.map (fun x => (x - npMean l) ^ 2)).sum / (l.length : ℚ)

/-- Model of `np.std(l)` with the default `ddof=0`. -/
noncomputable def npStd (l : List ℚ) : ℝ := Real.sqrt (npVarP l)

/-- One row of the `daily_counts` table as consumed by
`perform_ttest_exam_periods`: its `daily_views` value and its
`is_exam_period` flag. -/
structure DailyRow where
  daily_views : ℚ
  is_exam_period : Bool
deriving DecidableEq

/-- The selection `daily_counts[daily_counts['is_exam_period']]['daily_views']`. -/
def examViews (daily_counts : List DailyRow) : List ℚ :=
  (daily_counts.filter (fun r => r.is_exam_period)).map (·.daily_views)

/-- The selection `daily_counts[~daily_counts['is_exam_period']]['daily_views']`. -/
def nonExamViews (daily_counts : List DailyRow) : List ℚ :=
  (daily_counts.filter (fun r => !r.is_exam_period)).map (·.daily_views)

/-- The dictionary returned by `perform_ttest_exam_periods`. -/
structure TTestResult where
  t_statistic : Option ℝ
  p_value : Option ℝ
  cohens_d : Option ℝ
  exam_mean : ℚ
  non_exam_mean : ℚ
  exam_std : ℝ
  non_exam_std : ℝ
  exam_days : ℕ
  non_exam_days : ℕ

/-- The function `perform_ttest_exam_periods` of `statistical_analysis.py`.  `ttest_ind`
is the external `scipy.stats.ttest_ind`, returning (statistic, p-value). -/
noncomputable def perform_ttest_exam_periods
    (ttest_ind : List ℚ → List ℚ → ℝ × ℝ) (daily_counts : List DailyRow) :
    TTestResult :=
  let exam_views := examViews daily_counts
  let non_exam_views := nonExamViews daily_counts
  if exam_views.length = 0 ∨ non_exam_views.length = 0 then
    { t_statistic := none
      p_value := none
      cohens_d := none
      exam_mean := if 0 < exam_views.length then npMean exam_views else 0
      non_exam_mean := if 0 < non_exam_views.length then npMean non_exam_views else 0
      exam_std := if 0 < exam_views.length then npStd exam_views else 0
      non_exam_std := if 0 < non_exam_views.length then npStd non_exam_views else 0
      exam_days := exam_views.length
      non_exam_days := non_exam_views.length }
  else
    let n1 : ℕ := exam_views.length
    let n2 : ℕ := non_exam_views.length
    let var1 := npVarS exam_views
    let var2 := npVarS non_exam_views
    let pooled_se : ℝ :=
      Real.sqrt (((var1 : ℝ) * ((n1 : ℝ) - 1) + (var2 : ℝ) * ((n2 : ℝ) - 1)) /
        ((n1 : ℝ) + (n2 : ℝ) - 2))
    let cohens_d : ℝ :=
      if pooled_se ≠ 0 then
        ((npMean exam_views : ℝ) - (npMean non_exam_views : ℝ)) / pooled_se
      else 0
    { t_statistic := some (ttest_ind exam_views non_exam_views).1
      p_value := some (ttest_ind exam_views non_exam_views).2
      cohens_d := some cohens_d
      exam_mean := npMean exam_views
      non_exam_mean := npMean non_exam_views
      exam_std := npStd exam_views
      non_exam_std := npStd non_exam_views
      exam_days := n1
      non_exam_days := n2 }

/-- The pooled standard deviation exactly as the specification words it:
`sqrt(((n_a−1)·var_a + (n_b−1)·var_b) / (n_a+n_b−2))` with sample
(`ddof=1`) variances. -/
noncomputable def pooledSd (a b : List ℚ) : ℝ :=
  Real.sqrt ((((a.length : ℝ) - 1) * (npVarS a : ℝ) +
      ((b.length : ℝ) - 1) * (npVarS b : ℝ)) /
    ((a.length : ℝ) + (b.length : ℝ) - 2))

/-! ### The chi-square goodness-of-fit test of
`statistical_tests.chi_square_test` -/

/-- Model of the `scipy.stats.chisquare` statistic from its documentation:
the Pearson formula `Σ (O−E)²/E`.  (The p-value is an upper-tail chi-square
distribution probability, external and not modelled.) -/
def chisquareStat (observed expected : List ℚ) : ℚ :=
  ((observed.zip expected).map (fun oe => (oe.1 - oe.2) ^ 2 / oe.2)).sum

/-- The result fields of `chi_square_test` that the statistic computation
determines. -/
structure ChiSquareResult where
  statistic : ℚ
  observed : List ℚ
  expected : List ℚ
deriving DecidableEq

/-- The function `chi_square_test` of `statistical_tests.py`, over the four scalars it
extracts from `exam_stats`. -/
def chi_square_test (exam_views non_exam_views exam_days non_exam_days : ℚ) :
    ChiSquareResult :=
  let total_views := exam_views + non_exam_views
  let total_days := exam_days + non_exam_days
  let expected_exam := total_views * (exam_days / total_days)
  let expected_non_exam := total_views * (non_exam_days / total_days)
  let observed := [exam_views, non_exam_views]
  let expected := [expected_exam, expected_non_exam]
  { statistic := chisquareStat observed expected
    observed := observed
    expected := expected }

/-! ### Title parser (`extract_show_info` of `process_netflix_data.py`)

`extract_show_info` applies the Python regex
`^(.*?)(?:: Season (\d+))?(?:: (Episode \d+|.*?))?$` with `re.match` and
returns `(group(1).strip(), group(2) or None, group(3) or None)`, falling
back to `(title, None, None)` when there is no match.  The functions below
are a direct operational transcription of that pattern under Python `re`
semantics: `re.match` anchors at the start only (the match need not consume
the whole string); `.` does not match a newline; `$` matches at the end of
the string or just before a terminal newline; `(.*?)` and `.*?` are lazy
(shortest first); `(?:...)?` is greedy (with the segment first); `|`
prefers the left branch; `\d+` is greedy with backtracking. -/

/-- Python `$` (without `re.MULTILINE`): succeeds when the remaining input
is empty or a single terminal newline. -/
def dollar (s : List Char) : Bool := s = [] ∨ s = ['\n']

/-- The segment `\d+` immediately followed by `$`: greedy, longest digit run first;
returns the digits consumed, `none` on failure. -/
def digitsDollar : List Char → Option (List Char)
  | [] => none
  | c :: t =>
      if c.isDigit then
        match digitsDollar t with
        | some ds => some (c :: ds)
        | none => if dollar t then some [c] else none
      else none

/-- The left alternative `Episode \d+` of group 3, followed by `$`; returns
the captured text. -/
def episodeNum (t : List Char) : Option (List Char) :=
  match t with
  | 'E' :: 'p' :: 'i' :: 's' :: 'o' :: 'd' :: 'e' :: ' ' :: rest =>
      (digitsDollar rest).map
        (fun ds => 'E' :: 'p' :: 'i' :: 's' :: 'o' :: 'd' :: 'e' :: ' ' :: ds)
  | _ => none

/-- The right alternative `.*?` of group 3, followed by `$`: lazy, shortest
first; `.` cannot cross a newline; returns the captured text. -/
def dotStarDollar : List Char → Option (List Char)
  | [] => some []
  | c :: t =>
      if dollar (c :: t) then some []
      else if c = '\n' then none
      else (dotStarDollar t).map (c :: ·)

/-- Group 3, `(Episode \d+|.*?)`, followed by `$`: the left branch is
preferred. -/
def group3 (t : List Char) : Option (List Char) :=
  match episodeNum t with
  | some g => some g
  | none => dotStarDollar t

/-- The optional episode segment `(?:: (Episode \d+|.*?))?$`: greedy, the
segment tried first, then `$` alone; returns the group-3 capture (`none` =
group did not participate). -/
def episodeTail (s : List Char) : Option (Option (List Char)) :=
  match s with
  | ':' :: ' ' :: t =>
      match group3 t with
      | some g => some (some g)
      | none => if dollar s then some none else none
  | s => if dollar s then some none else none

/-- The segment `\d*` (greedy, with backtracking) followed by the continuation `k`;
returns the digits consumed and `k`'s result. -/
def digitStar (k : List Char → Option (Option (List Char))) :
    List Char → Option (List Char × Option (List Char))
  | [] => (k []).map (fun r => ([], r))
  | c :: t =>
      if c.isDigit then
        match digitStar k t with
        | some (ds, r) => some (c :: ds, r)
        | none => (k (c :: t)).map (fun r => ([], r))
      else (k (c :: t)).map (fun r => ([], r))

/-- The optional season segment `(?:: Season (\d+))?` followed by the
episode segment: greedy, the season segment tried first; returns
`(group 2, group 3)`. -/
def seasonTail (s : List Char) : Option (Option (List Char) × Option (List Char)) :=
  match s with
  | ':' :: ' ' :: 'S' :: 'e' :: 'a' :: 's' :: 'o' :: 'n' :: ' ' :: rest =>
      match rest with
      | c :: t =>
          if c.isDigit then
            match digitStar episodeTail t with
            | some (ds, ep) => some (some (c :: ds), ep)
            | none => (episodeTail s).map (fun ep => (none, ep))
          else (episodeTail s).map (fun ep => (none, ep))
      | [] => (episodeTail s).map (fun ep => (none, ep))
  | s => (episodeTail s).map (fun ep => (none, ep))

/-- The segment `^(.*?)` followed by the season and episode segments: lazy, the tail
match is tried at the current position before `.*?` consumes one more
(non-newline) character; returns `(group 1, group 2, group 3)`, or `none`
when the regex does not match. -/
def matchTitle : List Char →
    Option (List Char × Option (List Char) × Option (List Char))
  | [] =>
      match seasonTail [] with
      | some (g2, g3) => some ([], g2, g3)
      | none => none
  | c :: t =>
      match seasonTail (c :: t) with
      | some (g2, g3) => some ([], g2, g3)
      | none =>
          if c = '\n' then none
          else (matchTitle t).map (fun r => (c :: r.1, r.2))

/-- The ASCII whitespace stripped by Python `str.strip()`. -/
def isPySpace (c : Char) : Bool :=
  c = ' ' ∨ c = '\t' ∨ c = '\n' ∨ c = '\r' ∨ c = '\x0b' ∨ c = '\x0c'

/-- Python `title.strip()`. -/
def pyStrip (s : List Char) : List Char :=
  ((s.dropWhile isPySpace).reverse.dropWhile isPySpace).reverse

/-- The function `extract_show_info` of `process_netflix_data.py`.  Python's
`x if x else None` maps both a non-participating group and an empty capture
to `None`. -/
def extract_show_info (title : List Char) :
    List Char × Option (List Char) × Option (List Char) :=
  match matchTitle title with
  | some (g1, g2, g3) =>
      (pyStrip g1,
       match g2 with
       | some ds => if ds = [] then none else some ds
       | none => none,
       match g3 with
       | some e => if e = [] then none else some e
       | none => none)
  | none => (title, none, none)

/-- The inputs on which the pattern's tail can reach `$`: no newline except
possibly a single terminal one (auxiliary predicate for the parser
analysis). -/
def NLok : List Char → Bool
  | [] => true
  | c :: t => if c = '\n' then t.isEmpty else NLok t

/-- Whether a string contains the two-character sequence `": "` (auxiliary
predicate for the parser analysis: the characters at which group 1 can
end). -/
def hasCS : List Char → Bool
  | [] => false
  | [_] => false
  | a :: b :: t => (a = ':' ∧ b = ' ') ∨ hasCS (b :: t)

/-! ## Theorems -/

/-! ### The period classifier (claims C5, C10) -/

/-- The classifying scan returns `true` exactly on inclusive interval
membership. -/
theorem is_exam_period_iff (date : ℕ) (ps : List (ℕ × ℕ)) :
    is_exam_period date ps = true ↔ ∃ p ∈ ps, p.1 ≤ date ∧ date ≤ p.2 := by
  induction ps with
  | nil => simp [is_exam_period]
  | cons hd tl ih =>
      obtain ⟨s, e⟩ := hd
      by_cases h : s ≤ date ∧ date ≤ e
      · simp [is_exam_period, h]
      · simp only [is_exam_period, if_neg h, ih, List.mem_cons]
        constructor
        · rintro ⟨p, hp, h1, h2⟩; exact ⟨p, Or.inr hp, h1, h2⟩
        · rintro ⟨p, hp | hp, h1, h2⟩
          · cases hp; exact absurd ⟨h1, h2⟩ h
          · exact ⟨p, hp, h1, h2⟩

/-- C5: the classifier returns true iff the date lies in at least one
interval (inclusive bounds); the scan short-circuits on the first matching
interval (the rest of the list is irrelevant); and a date strictly between
two disjoint intervals classifies false. -/
theorem classify_spec (date : ℕ) :
    (∀ ps : List (ℕ × ℕ),
        is_exam_period date ps = true ↔ ∃ p ∈ ps, p.1 ≤ date ∧ date ≤ p.2) ∧
    (∀ s e rest, s ≤ date → date ≤ e →
        is_exam_period date ((s, e) :: rest) = true) ∧
    (∀ s1 e1 s2 e2, e1 < date → date < s2 →
        is_exam_period date [(s1, e1), (s2, e2)] = false) := by
  refine ⟨fun ps => is_exam_period_iff date ps, ?_, ?_⟩
  · intro s e rest h1 h2
    simp [is_exam_period, h1, h2]
  · intro s1 e1 s2 e2 h1 h2
    have n1 : ¬(s1 ≤ date ∧ date ≤ e1) := fun h => absurd h.2 (by omega)
    have n2 : ¬(s2 ≤ date ∧ date ≤ e2) := fun h => absurd h.1 (by omega)
    simp [is_exam_period, n1, n2]

/-- Witness for C5 at concrete inputs: date 5 is inside `[4,6]` whatever
follows, and classifies false strictly between `[1,2]` and `[8,9]`. -/
theorem classify_spec_witness :
    is_exam_period 5 [(4, 6), (10, 20)] = true ∧
    is_exam_period 5 [(1, 2), (8, 9)] = false :=
  ⟨(classify_spec 5).2.1 4 6 [(10, 20)] (by decide) (by decide),
   (classify_spec 5).2.2 1 2 8 9 (by decide) (by decide)⟩

/-- C10 counterexample: the two classifiers are not extensionally equal.
2024-03-25 (start of the first hardcoded interval of
`statistical_tests.py` / `process_netflix_data.py`) is classified as exam
period there, but not by `statistical_analysis.py`'s 4-interval list. -/
theorem classifiers_disagree_cx :
    tests_is_exam_period (mkDate 2024 3 25) = true ∧
    analysis_is_exam_period (mkDate 2024 3 25) = false := by decide

/-- C10 amended: both classifiers compute inclusive-bounds membership in
their own hardcoded interval lists, but they are NOT extensionally equal:
they disagree at 2024-03-25. -/
theorem classifiers_not_extensionally_equal :
    (∀ d, tests_is_exam_period d = true ↔
        ∃ p ∈ EXAM_PERIODS, p.1 ≤ d ∧ d ≤ p.2) ∧
    (∀ d, analysis_is_exam_period d = true ↔
        ∃ p ∈ ANALYSIS_EXAM_PERIODS, p.1 ≤ d ∧ d ≤ p.2) ∧
    tests_is_exam_period (mkDate 2024 3 25) ≠
      analysis_is_exam_period (mkDate 2024 3 25) :=
  ⟨fun d => is_exam_period_iff d EXAM_PERIODS,
   fun d => is_exam_period_iff d ANALYSIS_EXAM_PERIODS,
   by decide⟩

/-! ### Aggregation counterexamples (claims C1, C8) -/

/-- C1 counterexample: 2024-01-01 and 2024-12-30 have the same ISO week
number (1) but different ISO years (2024 vs 2025), yet the weekly aggregate
merges them into a single row, because `calculate_viewing_metrics` groups by
`year = dt.year` (the calendar year, 2024 for both) rather than the ISO
year. -/
theorem weekly_key_not_iso_year_cx :
    isoWeekOf (mkDate 2024 1 1) = isoWeekOf (mkDate 2024 12 30) ∧
    isoYearOf (mkDate 2024 1 1) ≠ isoYearOf (mkDate 2024 12 30) ∧
    (weeklyCounts [⟨mkDate 2024 1 1, [], []⟩, ⟨mkDate 2024 12 30, [], []⟩]).length
      = 1 := by decide

/-- C8 counterexample: the daily aggregate produced by
`calculate_viewing_metrics` carries no `is_period`/`is_weekend` columns, and
the flags attached to its rows downstream by
`statistical_analysis.load_processed_data` are re-derived from the date with
the 4-interval list, NOT copied from the events: on 2024-03-25 every event
is flagged in-exam-period by the processing pipeline, while the re-loaded
daily row for that date is flagged out-of-exam-period. -/
theorem daily_flags_not_copied_cx :
    tests_is_exam_period (mkDate 2024 3 25) = true ∧
    loadedDailyRows (dailyCounts [⟨mkDate 2024 3 25, ['A'], ['A']⟩]) =
      [((mkDate 2024 3 25, 1, 1), false, false)] := by decide

/-! ### Grouping lemmas -/

/-- The distinct group keys of a `groupby` have no duplicates. -/
theorem groupbyKeys_nodup {κ : Type} [DecidableEq κ] (le : κ → κ → Bool)
    (ks : List κ) : (groupbyKeys le ks).Nodup :=
  (List.perm_insertionSort _ _).symm.nodup (List.nodup_dedup ks)

/-- Membership in the group keys is membership in the raw key list. -/
theorem groupbyKeys_mem {κ : Type} [DecidableEq κ] (le : κ → κ → Bool)
    (ks : List κ) (a : κ) : a ∈ groupbyKeys le ks ↔ a ∈ ks :=
  (List.perm_insertionSort _ _).mem_iff.trans List.mem_dedup

theorem sum_map_add_nat {κ : Type} (f g : κ → ℕ) (l : List κ) :
    (l.map (fun k => f k + g k)).sum = (l.map f).sum + (l.map g).sum := by
  induction l with
  | nil => simp
  | cons a t ih => simp only [List.map_cons, List.sum_cons, ih]; omega

theorem sum_map_indicator {κ : Type} [DecidableEq κ] (a : κ) :
    ∀ ks : List κ, ks.Nodup → a ∈ ks →
      (ks.map (fun k => if a = k then (1 : ℕ) else 0)).sum = 1 := by
  intro ks
  induction ks with
  | nil => intro _ h; simp at h
  | cons k t ih =>
      intro hnd hmem
      obtain ⟨hkt, hndt⟩ := List.nodup_cons.mp hnd
      rcases List.mem_cons.mp hmem with h | h
      · subst h
        have hz : (t.map (fun k => if a = k then (1 : ℕ) else 0)).sum = 0 := by
          apply List.sum_eq_zero
          intro x hx
          obtain ⟨k', hk', hx'⟩ := List.mem_map.mp hx
          have : a ≠ k' := fun he => hkt (he ▸ hk')
          simp [this] at hx'
          omega
        simp [hz]
      · have hak : a ≠ k := fun he => hkt (he ▸ h)
        simp [hak, ih hndt h]

/-- Summing the group sizes over a duplicate-free, complete key list
recovers the total number of events. -/
theorem sum_group_lengths {α κ : Type} [DecidableEq κ] (key : α → κ)
    (ks : List κ) (hnd : ks.Nodup) :
    ∀ events : List α, (∀ e ∈ events, key e ∈ ks) →
      (ks.map (fun k => (events.filter (fun e => key e = k)).length)).sum
        = events.length := by
  intro events
  induction events with
  | nil => intro _; simp
  | cons a t ih =>
      intro hall
      have h1 : ∀ k : κ,
          (List.filter (fun e => decide (key e = k)) (a :: t)).length
            = (if key a = k then 1 else 0)
              + (List.filter (fun e => decide (key e = k)) t).length := by
        intro k
        by_cases h : key a = k
        · simp [List.filter_cons, h]
          omega
        · simp [List.filter_cons, h]
      simp only [h1]
      rw [sum_map_add_nat]
      rw [sum_map_indicator (key a) ks hnd (hall a (List.mem_cons_self a t))]
      rw [ih (fun e he => hall e (List.mem_cons_of_mem a he))]
      rw [List.length_cons]
      omega

/-! ### Aggregation conserves the event count (claim C7) -/

/-- C7: the daily aggregate's view counts and the weekly aggregate's view
counts both sum to the number of input events. -/
theorem aggregation_conserves_counts (events : List Event) :
    ((dailyCounts events).map (fun r => r.2.1)).sum = events.length ∧
    ((weeklyCounts events).map (fun r => r.2)).sum = events.length := by
  constructor
  · unfold dailyCounts
    rw [List.map_map]
    exact sum_group_lengths (fun e => e.date) _ (groupbyKeys_nodup _ _) events
      (fun e he => (groupbyKeys_mem _ _ _).mpr (List.mem_map_of_mem _ he))
  · unfold weeklyCounts
    rw [List.map_map]
    exact sum_group_lengths (fun e => (yearOf e.date, isoWeekOf e.date)) _
      (groupbyKeys_nodup _ _) events
      (fun e he => (groupbyKeys_mem _ _ _).mpr (List.mem_map_of_mem _ he))

/-! ### Row-level description of the aggregates (claims C8, C1 amended) -/

/-- C8 amended: the daily aggregate has exactly one row per distinct date
present in the input, carrying `daily_views` = the number of events of that
date and `unique_shows` = the number of distinct show names of that date.
(The code's daily rows carry no period/weekend flags; see
`daily_flags_not_copied_cx`.) -/
theorem daily_aggregate_rows (events : List Event) :
    ((dailyCounts events).map (fun r => r.1)).Nodup ∧
    (∀ d v u, (d, v, u) ∈ dailyCounts events ↔
      ((∃ e ∈ events, e.date = d) ∧
       v = (events.filter (fun e => e.date = d)).length ∧
       u = ((events.filter (fun e => e.date = d)).map (·.show_name)).dedup.length)) := by
  constructor
  · unfold dailyCounts
    rw [List.map_map]
    have hcomp : ((fun r : ℕ × ℕ × ℕ => r.1) ∘ (fun d =>
        (d, (events.filter (fun e => e.date = d)).length,
            ((events.filter (fun e => e.date = d)).map (·.show_name)).dedup.length)))
        = id := rfl
    rw [hcomp, List.map_id]
    exact groupbyKeys_nodup _ _
  · intro d v u
    unfold dailyCounts
    rw [List.mem_map]
    constructor
    · rintro ⟨k, hk, heq⟩
      rw [Prod.mk.injEq, Prod.mk.injEq] at heq
      obtain ⟨hkd, hlv, hlu⟩ := heq
      subst hkd
      refine ⟨?_, hlv.symm, hlu.symm⟩
      have hmem : k ∈ events.map (·.date) := (groupbyKeys_mem _ _ _).mp hk
      obtain ⟨e, he, hed⟩ := List.mem_map.mp hmem
      exact ⟨e, he, hed⟩
    · rintro ⟨⟨e, he, hed⟩, hv, hu⟩
      subst hv; subst hu
      exact ⟨d, (groupbyKeys_mem _ _ _).mpr (List.mem_map.mpr ⟨e, he, hed⟩), rfl⟩

/-- C1 amended: the weekly aggregate is keyed by the pair
(`dt.year`, ISO `week_number`) — the CALENDAR year, not the ISO year.  It
has exactly one row per distinct such pair present in the input, and merges
exactly the events sharing calendar year and ISO week number; by
`weekly_key_not_iso_year_cx` this merges events of distinct ISO years. -/
theorem weekly_aggregate_keyed_by_calendar_year (events : List Event) :
    ((weeklyCounts events).map (fun r => r.1)).Nodup ∧
    (∀ y w n, ((y, w), n) ∈ weeklyCounts events ↔
      ((∃ e ∈ events, yearOf e.date = y ∧ isoWeekOf e.date = w) ∧
       n = (events.filter
              (fun e => (yearOf e.date, isoWeekOf e.date) = (y, w))).length)) := by
  constructor
  · unfold weeklyCounts
    rw [List.map_map]
    have hcomp : ((fun r : (ℕ × ℕ) × ℕ => r.1) ∘ (fun k =>
        (k, (events.filter
              (fun e => (yearOf e.date, isoWeekOf e.date) = k)).length)))
        = id := rfl
    rw [hcomp, List.map_id]
    exact groupbyKeys_nodup _ _
  · intro y w n
    unfold weeklyCounts
    rw [List.mem_map]
    constructor
    · rintro ⟨k, hk, heq⟩
      rw [Prod.mk.injEq] at heq
      obtain ⟨hkd, hn⟩ := heq
      subst hkd
      refine ⟨?_, hn.symm⟩
      have hmem : (y, w) ∈ events.map (fun e => (yearOf e.date, isoWeekOf e.date)) :=
        (groupbyKeys_mem _ _ _).mp hk
      obtain ⟨e, he, hed⟩ := List.mem_map.mp hmem
      rw [Prod.mk.injEq] at hed
      exact ⟨e, he, hed⟩
    · rintro ⟨⟨e, he, hy, hw⟩, hn⟩
      subst hn
      refine ⟨(y, w), (groupbyKeys_mem _ _ _).mpr
        (List.mem_map.mpr ⟨e, he, by rw [hy, hw]⟩), rfl⟩

/-! ### Binge detection (claim C6) -/

theorem filter_group_rows {κ : Type} [DecidableEq κ] (cnt : κ → ℕ) (k0 : κ) :
    ∀ ks : List κ, ks.Nodup →
      (((ks.map (fun k => (k, cnt k))).filter (fun r => 3 ≤ r.2)).filter
          (fun r => r.1 = k0)).length
        = if k0 ∈ ks ∧ 3 ≤ cnt k0 then 1 else 0 := by
  intro ks
  induction ks with
  | nil => intro _; simp
  | cons k t ih =>
      intro hnd
      obtain ⟨hkt, hndt⟩ := List.nodup_cons.mp hnd
      have iht := ih hndt
      simp only [List.map_cons]
      by_cases h3 : 3 ≤ cnt k
      · rw [List.filter_cons_of_pos (by simpa using h3)]
        by_cases hk : k = k0
        · subst hk
          rw [List.filter_cons_of_pos (by simp)]
          rw [List.length_cons, iht]
          have hnot : ¬(k ∈ t ∧ 3 ≤ cnt k) := fun h => hkt h.1
          rw [if_neg hnot, if_pos ⟨List.mem_cons_self k t, h3⟩]
        · rw [List.filter_cons_of_neg (by simpa using hk)]
          rw [iht]
          by_cases hm : k0 ∈ t ∧ 3 ≤ cnt k0
          · rw [if_pos hm, if_pos ⟨List.mem_cons_of_mem k hm.1, hm.2⟩]
          · have hnot2 : ¬(k0 ∈ k :: t ∧ 3 ≤ cnt k0) := by
              rintro ⟨hmem, hc⟩
              rcases List.mem_cons.mp hmem with he | he
              · exact hk he.symm
              · exact hm ⟨he, hc⟩
            rw [if_neg hm, if_neg hnot2]
      · rw [List.filter_cons_of_neg (by simpa using h3)]
        rw [iht]
        by_cases hm : k0 ∈ t ∧ 3 ≤ cnt k0
        · rw [if_pos hm, if_pos ⟨List.mem_cons_of_mem k hm.1, hm.2⟩]
        · have hnot2 : ¬(k0 ∈ k :: t ∧ 3 ≤ cnt k0) := by
            rintro ⟨hmem, hc⟩
            rcases List.mem_cons.mp hmem with he | he
            · subst he; exact h3 hc
            · exact hm ⟨he, hc⟩
          rw [if_neg hm, if_neg hnot2]

/-- C6: binge detection groups events by (date, show) and emits exactly one
binge row for a (date, show) pair iff at least 3 events of that show fall on
that date: a day with 2 episodes of a show yields no row, a day with 3
yields exactly one. -/
theorem binge_sessions_threshold (events : List Event) (d : ℕ) (s : List Char) :
    ((binge_sessions events).filter (fun r => r.1 = (d, s))).length =
      (if 3 ≤ (events.filter (fun e => (e.date, e.show_name) = (d, s))).length
       then 1 else 0) := by
  unfold binge_sessions daily_show_counts
  rw [filter_group_rows
    (fun k => (events.filter (fun e => (e.date, e.show_name) = k)).length)
    (d, s) _ (groupbyKeys_nodup _ _)]
  by_cases h3 : 3 ≤ (events.filter (fun e => (e.date, e.show_name) = (d, s))).length
  · have hpos : 0 < (events.filter (fun e => (e.date, e.show_name) = (d, s))).length := by
      omega
    have hne := List.length_pos.mp hpos
    have hmem : (d, s) ∈ groupbyKeys
        (fun a b => if a.1 = b.1 then charListLe a.2 b.2 else decide (a.1 < b.1))
        (events.map (fun e => (e.date, e.show_name))) := by
      rcases hl : events.filter (fun e => (e.date, e.show_name) = (d, s)) with _ | ⟨e, rest⟩
      · exact absurd hl hne
      · have he : e ∈ events.filter (fun e => (e.date, e.show_name) = (d, s)) := by
          rw [hl]; exact List.mem_cons_self e rest
        have := List.mem_filter.mp he
        refine (groupbyKeys_mem _ _ _).mpr (List.mem_map.mpr ⟨e, this.1, ?_⟩)
        simpa using this.2
    rw [if_pos ⟨hmem, h3⟩, if_pos h3]
  · rw [if_neg (fun h => h3 h.2), if_neg h3]

/-! ### The t-test (claims C2, C3) -/

/-- C2: whenever either the exam or the non-exam sample is empty, the t-test
returns (it does not raise): statistic, p-value and Cohen's d are NaN
(modelled `none`), and the mean and standard deviation of each empty side
are 0. -/
theorem ttest_empty_sample_nan (ttest_ind : List ℚ → List ℚ → ℝ × ℝ)
    (daily_counts : List DailyRow)
    (h : examViews daily_counts = [] ∨ nonExamViews daily_counts = []) :
    (perform_ttest_exam_periods ttest_ind daily_counts).t_statistic = none ∧
    (perform_ttest_exam_periods ttest_ind daily_counts).p_value = none ∧
    (perform_ttest_exam_periods ttest_ind daily_counts).cohens_d = none ∧
    (examViews daily_counts = [] →
      (perform_ttest_exam_periods ttest_ind daily_counts).exam_mean = 0 ∧
      (perform_ttest_exam_periods ttest_ind daily_counts).exam_std = 0) ∧
    (nonExamViews daily_counts = [] →
      (perform_ttest_exam_periods ttest_ind daily_counts).non_exam_mean = 0 ∧
      (perform_ttest_exam_periods ttest_ind daily_counts).non_exam_std = 0) := by
  have hlen : (examViews daily_counts).length = 0 ∨
      (nonExamViews daily_counts).length = 0 := by
    rcases h with h | h <;> [left; right] <;> simp [h]
  unfold perform_ttest_exam_periods
  rw [if_pos hlen]
  refine ⟨rfl, rfl, rfl, ?_, ?_⟩
  · intro he
    have : ¬(0 < (examViews daily_counts).length) := by simp [he]
    simp [this]
  · intro he
    have : ¬(0 < (nonExamViews daily_counts).length) := by simp [he]
    simp [this]

/-- Witness for C2: one non-exam row and no exam rows. -/
theorem ttest_empty_sample_nan_witness :
    (perform_ttest_exam_periods (fun _ _ => (0, 0))
        [⟨(3 : ℚ), false⟩]).t_statistic = none ∧
    (perform_ttest_exam_periods (fun _ _ => (0, 0))
        [⟨(3 : ℚ), false⟩]).cohens_d = none ∧
    (perform_ttest_exam_periods (fun _ _ => (0, 0))
        [⟨(3 : ℚ), false⟩]).exam_mean = 0 :=
  have h := ttest_empty_sample_nan (fun _ _ => (0, 0)) [⟨(3 : ℚ), false⟩]
    (Or.inl (by decide))
  ⟨h.1, h.2.2.1, (h.2.2.2.1 (by decide)).1⟩

/-- C3: with both samples non-empty (and more than two data points in
total), the reported Cohen's d is `(mean_a − mean_b) / pooled_sd` with the
pooled standard deviation of the specification
(`sqrt(((n_a−1)·var_a + (n_b−1)·var_b) / (n_a+n_b−2))`, sample `ddof=1`
variances), and it is 0 whenever the pooled standard deviation is exactly
zero. -/
theorem ttest_cohens_d_pooled (ttest_ind : List ℚ → List ℚ → ℝ × ℝ)
    (daily_counts : List DailyRow)
    (h1 : examViews daily_counts ≠ []) (h2 : nonExamViews daily_counts ≠ [])
    (_h3 : 2 < (examViews daily_counts).length + (nonExamViews daily_counts).length) :
    (perform_ttest_exam_periods ttest_ind daily_counts).cohens_d =
      some (if pooledSd (examViews daily_counts) (nonExamViews daily_counts) = 0
        then 0
        else ((npMean (examViews daily_counts) : ℝ) -
            (npMean (nonExamViews daily_counts) : ℝ)) /
          pooledSd (examViews daily_counts) (nonExamViews daily_counts)) := by
  have hlen : ¬((examViews daily_counts).length = 0 ∨
      (nonExamViews daily_counts).length = 0) := by
    rcases List.exists_cons_of_ne_nil h1 with ⟨a, l, he⟩
    rcases List.exists_cons_of_ne_nil h2 with ⟨b, m, hn⟩
    simp [he, hn]
  unfold perform_ttest_exam_periods
  rw [if_neg hlen]
  simp only [Option.some.injEq]
  have hsd : Real.sqrt (((npVarS (examViews daily_counts) : ℝ) *
        (((examViews daily_counts).length : ℝ) - 1) +
        (npVarS (nonExamViews daily_counts) : ℝ) *
        (((nonExamViews daily_counts).length : ℝ) - 1)) /
      (((examViews daily_counts).length : ℝ) +
        ((nonExamViews daily_counts).length : ℝ) - 2)) =
      pooledSd (examViews daily_counts) (nonExamViews daily_counts) := by
    unfold pooledSd
    congr 1
    ring
  rw [hsd]
  by_cases hz : pooledSd (examViews daily_counts) (nonExamViews daily_counts) = 0
  · rw [if_neg (by simpa using hz), if_pos hz]
  · rw [if_pos hz, if_neg hz]

/-- Witness for C3: samples `[1]` (exam) and `[2, 4]` (non-exam). -/
theorem ttest_cohens_d_pooled_witness :
    (perform_ttest_exam_periods (fun _ _ => (0, 0))
        [⟨(1 : ℚ), true⟩, ⟨(2 : ℚ), false⟩, ⟨(4 : ℚ), false⟩]).cohens_d =
      some (if pooledSd (examViews [⟨(1 : ℚ), true⟩, ⟨(2 : ℚ), false⟩, ⟨(4 : ℚ), false⟩])
            (nonExamViews [⟨(1 : ℚ), true⟩, ⟨(2 : ℚ), false⟩, ⟨(4 : ℚ), false⟩]) = 0
        then 0
        else ((npMean (examViews [⟨(1 : ℚ), true⟩, ⟨(2 : ℚ), false⟩, ⟨(4 : ℚ), false⟩]) : ℝ) -
            (npMean (nonExamViews [⟨(1 : ℚ), true⟩, ⟨(2 : ℚ), false⟩, ⟨(4 : ℚ), false⟩]) : ℝ)) /
          pooledSd (examViews [⟨(1 : ℚ), true⟩, ⟨(2 : ℚ), false⟩, ⟨(4 : ℚ), false⟩])
            (nonExamViews [⟨(1 : ℚ), true⟩, ⟨(2 : ℚ), false⟩, ⟨(4 : ℚ), false⟩])) :=
  ttest_cohens_d_pooled (fun _ _ => (0, 0))
    [⟨(1 : ℚ), true⟩, ⟨(2 : ℚ), false⟩, ⟨(4 : ℚ), false⟩]
    (by decide) (by decide) (by decide)

/-! ### The chi-square goodness-of-fit test (claim C9) -/

/-- C9: the expected frequencies are proportional to the day counts
(`expected_i = total_observations · days_i / total_days`), they sum to the
same total as the observed frequencies whenever the total day count is
positive, and the statistic is the standard chi-square formula
`Σ (O−E)²/E`. -/
theorem chi_square_expected_proportional
    (exam_views non_exam_views exam_days non_exam_days : ℚ)
    (h : 0 < exam_days + non_exam_days) :
    (chi_square_test exam_views non_exam_views exam_days non_exam_days).observed
        = [exam_views, non_exam_views] ∧
    (chi_square_test exam_views non_exam_views exam_days non_exam_days).expected
        = [(exam_views + non_exam_views) * exam_days / (exam_days + non_exam_days),
           (exam_views + non_exam_views) * non_exam_days / (exam_days + non_exam_days)] ∧
    ((chi_square_test exam_views non_exam_views exam_days non_exam_days).expected.sum
        = (chi_square_test exam_views non_exam_views exam_days non_exam_days).observed.sum) ∧
    (chi_square_test exam_views non_exam_views exam_days non_exam_days).statistic
        = (exam_views -
              (exam_views + non_exam_views) * exam_days / (exam_days + non_exam_days)) ^ 2 /
            ((exam_views + non_exam_views) * exam_days / (exam_days + non_exam_days)) +
          (non_exam_views -
              (exam_views + non_exam_views) * non_exam_days / (exam_days + non_exam_days)) ^ 2 /
            ((exam_views + non_exam_views) * non_exam_days / (exam_days + non_exam_days)) := by
  have hne : exam_days + non_exam_days ≠ 0 := ne_of_gt h
  refine ⟨rfl, ?_, ?_, ?_⟩
  · unfold chi_square_test
    simp only [mul_div_assoc]
  · unfold chi_square_test
    simp only [List.sum_cons, List.sum_nil]
    field_simp
    ring
  · unfold chi_square_test chisquareStat
    simp only [List.zip_cons_cons, List.zip_nil_right, List.map_cons, List.map_nil,
      List.sum_cons, List.sum_nil, add_zero, mul_div_assoc]

/-- Witness for C9 at the specification's test vector: observed `[100, 50]`,
days `[10, 10]`, hence expected `[75, 75]`. -/
theorem chi_square_expected_proportional_witness :
    (chi_square_test 100 50 10 10).expected = [75, 75] ∧
    (chi_square_test 100 50 10 10).expected.sum
      = (chi_square_test 100 50 10 10).observed.sum :=
  have h := chi_square_expected_proportional 100 50 10 10 (by norm_num)
  ⟨by rw [h.2.1]; norm_num, h.2.2.1⟩

/-! ### The title parser is idempotent (claim C4)

The proof proceeds by characterising where the pattern's tail can succeed
(`NLok`: no newline except a terminal one), showing that a successful group
1 can contain neither a newline nor the sequence `": "`, and that on such
strings — which stripped show names are — the whole pattern matches with
group 1 the entire string and groups 2 and 3 absent. -/

theorem dollar_iff (s : List Char) : dollar s = true ↔ (s = [] ∨ s = ['\n']) := by
  simp [dollar]

theorem nlok_of_dollar {s : List Char} (h : dollar s = true) : NLok s = true := by
  rcases (dollar_iff s).mp h with h | h <;> subst h <;> rfl

theorem nlok_cons {c : Char} (t : List Char) (h : ¬c = '\n') :
    NLok (c :: t) = NLok t := by
  simp [NLok, h]

theorem ne_nl_of_isDigit {c : Char} (h : c.isDigit = true) : ¬c = '\n' := by
  intro he
  subst he
  exact absurd h (by decide)

theorem nlok_append {p : List Char} (hp : ∀ c ∈ p, ¬c = '\n') (t : List Char) :
    NLok (p ++ t) = NLok t := by
  induction p with
  | nil => rfl
  | cons c q ih =>
      rw [List.cons_append, nlok_cons _ (hp c (List.mem_cons_self c q)),
        ih (fun c hc => hp c (List.mem_cons_of_mem _ hc))]

theorem digitsDollar_nlok : ∀ t, (digitsDollar t).isSome = true → NLok t = true := by
  intro t
  induction t with
  | nil => intro h; simp [digitsDollar] at h
  | cons c t ih =>
      intro h
      simp only [digitsDollar] at h
      by_cases hd : c.isDigit
      · rw [if_pos hd] at h
        rw [nlok_cons _ (ne_nl_of_isDigit hd)]
        rcases hds : digitsDollar t with _ | ds
        · rw [hds] at h
          by_cases hdol : dollar t = true
          · exact nlok_of_dollar hdol
          · simp [hdol] at h
        · exact ih (by simp [hds])
      · rw [if_neg hd] at h
        simp at h

theorem episodeNum_nlok {t g : List Char} (h : episodeNum t = some g) :
    NLok t = true := by
  unfold episodeNum at h
  split at h
  · next rest =>
      have hds : (digitsDollar rest).isSome = true := by
        rcases hr : digitsDollar rest with _ | ds
        · rw [hr] at h; simp at h
        · simp
      have hn := digitsDollar_nlok rest hds
      rw [nlok_cons _ (by decide), nlok_cons _ (by decide), nlok_cons _ (by decide),
        nlok_cons _ (by decide), nlok_cons _ (by decide), nlok_cons _ (by decide),
        nlok_cons _ (by decide), nlok_cons _ (by decide)]
      exact hn
  · exact absurd h (by simp)

theorem dotStarDollar_isSome : ∀ t, (dotStarDollar t).isSome = NLok t := by
  intro t
  induction t with
  | nil => rfl
  | cons c t ih =>
      rw [dotStarDollar]
      by_cases hdol : dollar (c :: t) = true
      · rw [if_pos hdol]
        exact (nlok_of_dollar hdol).symm
      · rw [if_neg hdol]
        by_cases hc : c = '\n'
        · subst hc
          rw [if_pos rfl]
          have ht : ¬t = [] := by
            intro he
            subst he
            exact hdol (by decide)
          simp [NLok, List.isEmpty_iff, ht]
        · rw [if_neg hc, nlok_cons _ hc, Option.isSome_map']
          exact ih

theorem group3_isSome (t : List Char) : (group3 t).isSome = NLok t := by
  unfold group3
  rcases he : episodeNum t with _ | g
  · exact dotStarDollar_isSome t
  · simp [episodeNum_nlok he]

theorem isSome_of_eq_some {α : Type} {o : Option α} {a : α} (h : o = some a) :
    o.isSome = true := by
  rw [h]; rfl

theorem episodeTail_colon (t : List Char) :
    episodeTail (':' :: ' ' :: t) =
      match group3 t with
      | some g => some (some g)
      | none => if dollar (':' :: ' ' :: t) then some none else none := rfl

theorem episodeTail_nlok {s : List Char} (h : (episodeTail s).isSome = true) :
    NLok s = true := by
  unfold episodeTail at h
  split at h
  · next t =>
      rcases hg : group3 t with _ | g
      · rw [hg] at h
        by_cases hdol : dollar (':' :: ' ' :: t) = true
        · exact nlok_of_dollar hdol
        · rw [if_neg hdol] at h
          exact absurd h (by simp)
      · have hn : NLok t = true := by rw [← group3_isSome t, hg]; rfl
        rw [nlok_cons _ (by decide), nlok_cons _ (by decide)]
        exact hn
  · by_cases hdol : dollar s = true
    · exact nlok_of_dollar hdol
    · rw [if_neg hdol] at h
      exact absurd h (by simp)

theorem episodeTail_cs_none {t : List Char}
    (h : episodeTail (':' :: ' ' :: t) = none) : NLok t = false := by
  rw [episodeTail_colon] at h
  rcases hg : group3 t with _ | g
  · rw [← group3_isSome t, hg]; rfl
  · rw [hg] at h
    exact absurd h (by simp)

theorem digitStar_decomp (k : List Char → Option (Option (List Char))) :
    ∀ t ds r, digitStar k t = some (ds, r) →
      ∃ t', t = ds ++ t' ∧ k t' = some r ∧ ∀ c ∈ ds, ¬c = '\n' := by
  intro t
  induction t with
  | nil =>
      intro ds r h
      simp only [digitStar] at h
      rcases hk : k [] with _ | r0
      · rw [hk] at h; exact absurd h (by simp)
      · rw [hk] at h
        rw [Option.map_some', Option.some.injEq, Prod.mk.injEq] at h
        obtain ⟨hds, hr⟩ := h
        subst hds; subst hr
        exact ⟨[], rfl, hk, by simp⟩
  | cons c t ih =>
      intro ds r h
      simp only [digitStar] at h
      by_cases hd : c.isDigit
      · rw [if_pos hd] at h
        rcases hds2 : digitStar k t with _ | ⟨ds', r'⟩
        · rw [hds2] at h
          rcases hk : k (c :: t) with _ | r0
          · rw [hk] at h; exact absurd h (by simp)
          · rw [hk] at h
            rw [Option.map_some', Option.some.injEq, Prod.mk.injEq] at h
            obtain ⟨hds, hr⟩ := h
            subst hds; subst hr
            exact ⟨c :: t, rfl, hk, by simp⟩
        · rw [hds2] at h
          rw [Option.some.injEq, Prod.mk.injEq] at h
          obtain ⟨hds, hr⟩ := h
          subst hds; subst hr
          obtain ⟨t', ht, hkt, hdig⟩ := ih ds' r' hds2
          refine ⟨t', by rw [List.cons_append, ← ht], hkt, ?_⟩
          intro x hx
          rcases List.mem_cons.mp hx with hx | hx
          · subst hx; exact ne_nl_of_isDigit hd
          · exact hdig x hx
      · rw [if_neg hd] at h
        rcases hk : k (c :: t) with _ | r0
        · rw [hk] at h; exact absurd h (by simp)
        · rw [hk] at h
          rw [Option.map_some', Option.some.injEq, Prod.mk.injEq] at h
          obtain ⟨hds, hr⟩ := h
          subst hds; subst hr
          exact ⟨c :: t, rfl, hk, by simp⟩

theorem nlok_cs_season {rest : List Char} (h : NLok rest = true) :
    NLok (':' :: ' ' :: 'S' :: 'e' :: 'a' :: 's' :: 'o' :: 'n' :: ' ' :: rest)
      = true := by
  rw [nlok_cons _ (by decide), nlok_cons _ (by decide), nlok_cons _ (by decide),
    nlok_cons _ (by decide), nlok_cons _ (by decide), nlok_cons _ (by decide),
    nlok_cons _ (by decide), nlok_cons _ (by decide), nlok_cons _ (by decide)]
  exact h

theorem seasonTail_nlok {s : List Char} (h : (seasonTail s).isSome = true) :
    NLok s = true := by
  unfold seasonTail at h
  split at h
  · next rest =>
      split at h
      · next c t =>
          by_cases hd : c.isDigit
          · rw [if_pos hd] at h
            rcases hds : digitStar episodeTail t with _ | ⟨ds, ep⟩
            · rw [hds] at h
              rw [Option.isSome_map'] at h
              exact episodeTail_nlok h
            · obtain ⟨t', ht, hep, hdig⟩ := digitStar_decomp episodeTail t ds ep hds
              have hn' : NLok t' = true := episodeTail_nlok (isSome_of_eq_some hep)
              have hnt : NLok t = true := by
                rw [ht, nlok_append hdig]
                exact hn'
              apply nlok_cs_season
              rw [nlok_cons _ (ne_nl_of_isDigit hd)]
              exact hnt
          · rw [if_neg hd] at h
            rw [Option.isSome_map'] at h
            exact episodeTail_nlok h
      · rw [Option.isSome_map'] at h
        exact episodeTail_nlok h
  · rw [Option.isSome_map'] at h
    exact episodeTail_nlok h

theorem seasonTail_none_episodeTail {s : List Char} (h : seasonTail s = none) :
    episodeTail s = none := by
  unfold seasonTail at h
  split at h
  · next rest =>
      split at h
      · next c t =>
          by_cases hd : c.isDigit
          · rw [if_pos hd] at h
            rcases hds : digitStar episodeTail t with _ | ⟨ds, ep⟩
            · rw [hds] at h
              rcases he : episodeTail _ with _ | r
              · rfl
              · rw [he] at h; exact absurd h (by simp)
            · rw [hds] at h; exact absurd h (by simp)
          · rw [if_neg hd] at h
            rcases he : episodeTail _ with _ | r
            · rfl
            · rw [he] at h; exact absurd h (by simp)
      · rcases he : episodeTail _ with _ | r
        · rfl
        · rw [he] at h; exact absurd h (by simp)
  · rcases he : episodeTail _ with _ | r
    · rfl
    · rw [he] at h; exact absurd h (by simp)

theorem seasonTail_cs_none {t : List Char}
    (h : seasonTail (':' :: ' ' :: t) = none) : NLok t = false :=
  episodeTail_cs_none (seasonTail_none_episodeTail h)

theorem matchTitle_none_of_nlok : ∀ s, NLok s = false → matchTitle s = none := by
  intro s
  induction s with
  | nil => intro h; exact absurd h (by decide)
  | cons c t ih =>
      intro h
      rw [matchTitle]
      rcases hs : seasonTail (c :: t) with _ | p
      · by_cases hc : c = '\n'
        · subst hc
          simp
        · have hnt : NLok t = false := by
            rw [← nlok_cons t hc]
            exact h
          simp [hc, ih hnt]
      · have := seasonTail_nlok (isSome_of_eq_some hs)
        rw [h] at this
        exact absurd this (by simp)

theorem matchTitle_inv {s : List Char} {g1 g2 g3}
    (h : matchTitle s = some (g1, g2, g3)) :
    (seasonTail s = some (g2, g3) ∧ g1 = []) ∨
    (∃ c t g1', s = c :: t ∧ ¬c = '\n' ∧ seasonTail s = none ∧
      matchTitle t = some (g1', g2, g3) ∧ g1 = c :: g1') := by
  rcases s with _ | ⟨c, t⟩
  · rw [matchTitle] at h
    rcases hs : seasonTail [] with _ | ⟨q2, q3⟩
    · rw [hs] at h
      exact absurd h (by simp)
    · rw [hs] at h
      simp only [Option.some.injEq, Prod.mk.injEq] at h
      obtain ⟨h1, h2, h3⟩ := h
      exact Or.inl ⟨by rw [h2, h3], h1.symm⟩
  · rw [matchTitle] at h
    rcases hs : seasonTail (c :: t) with _ | ⟨q2, q3⟩
    · rw [hs] at h
      by_cases hc : c = '\n'
      · rw [if_pos hc] at h
        exact absurd h (by simp)
      · rw [if_neg hc] at h
        rcases hm : matchTitle t with _ | ⟨p1, p2, p3⟩
        · rw [hm] at h
          exact absurd h (by simp)
        · rw [hm] at h
          simp only [Option.map_some', Option.some.injEq, Prod.mk.injEq] at h
          obtain ⟨h1, h2, h3⟩ := h
          exact Or.inr ⟨c, t, p1, rfl, hc, rfl, by rw [hm, h2, h3], h1.symm⟩
    · rw [hs] at h
      simp only [Option.some.injEq, Prod.mk.injEq] at h
      obtain ⟨h1, h2, h3⟩ := h
      exact Or.inl ⟨by rw [h2, h3], h1.symm⟩

theorem hasCS_tail {c : Char} {t : List Char} (h : hasCS (c :: t) = false) :
    hasCS t = false := by
  rcases t with _ | ⟨b, t'⟩
  · rfl
  · simp [hasCS] at h ⊢
    exact h.2

theorem matchTitle_g1 : ∀ s g1 g2 g3, matchTitle s = some (g1, g2, g3) →
    (∀ c ∈ g1, ¬c = '\n') ∧ hasCS g1 = false := by
  intro s
  induction s with
  | nil =>
      intro g1 g2 g3 h
      rcases matchTitle_inv h with ⟨_, hg⟩ | ⟨c, t, g1', hst, _⟩
      · subst hg; exact ⟨by simp, rfl⟩
      · exact absurd hst (by simp)
  | cons c0 t0 ih =>
      intro g1 g2 g3 h
      rcases matchTitle_inv h with ⟨_, hg⟩ | ⟨c, t, g1', hst, hc, hsn, hmt, hg⟩
      · subst hg; exact ⟨by simp, rfl⟩
      · injection hst with hc0 ht0
        subst hc0; subst ht0
        obtain ⟨ihn, ihcs⟩ := ih g1' g2 g3 hmt
        subst hg
        constructor
        · intro x hx
          rcases List.mem_cons.mp hx with hx | hx
          · subst hx; exact hc
          · exact ihn x hx
        · rcases hg1' : g1' with _ | ⟨b, g''⟩
          · rfl
          · subst hg1'
            by_cases hcb : c0 = ':' ∧ b = ' '
            · exfalso
              obtain ⟨hcolon, hspace⟩ := hcb
              rcases matchTitle_inv hmt with ⟨_, habs⟩ | ⟨c1, t1, g1'', hst1, _, _, hmt1, hgeq⟩
              · exact absurd habs (by simp)
              · injection hgeq with hb hg''
                subst hcolon
                subst hst1
                subst hb
                subst hspace
                have hnone : seasonTail (':' :: ' ' :: t1) = none := hsn
                have hnl := seasonTail_cs_none hnone
                have hmnone := matchTitle_none_of_nlok t1 hnl
                rw [hmnone] at hmt1
                exact absurd hmt1 (by simp)
            · have : hasCS (c0 :: b :: g'') = false := by
                simp [hasCS, ihcs]
                intro h1 h2
                exact hcb ⟨h1, h2⟩
              exact this

theorem episodeTail_not_colon {s : List Char}
    (hshape : ∀ t, s ≠ ':' :: ' ' :: t) :
    episodeTail s = if dollar s = true then some none else none := by
  unfold episodeTail
  split
  · next t => exact absurd rfl (hshape t)
  · rfl

theorem seasonTail_not_colon {s : List Char}
    (hshape : ∀ t, s ≠ ':' :: ' ' :: t) :
    seasonTail s = (episodeTail s).map (fun ep => (none, ep)) := by
  unfold seasonTail
  split
  · next rest =>
      exact absurd rfl (hshape ('S' :: 'e' :: 'a' :: 's' :: 'o' :: 'n' :: ' ' :: rest))
  · rfl

theorem matchTitle_full : ∀ s, (∀ c ∈ s, ¬c = '\n') → hasCS s = false →
    matchTitle s = some (s, none, none) := by
  intro s
  induction s with
  | nil =>
      intro _ _
      rfl
  | cons c t ih =>
      intro hnl hcs
      have hshape : ∀ t2, c :: t ≠ ':' :: ' ' :: t2 := by
        intro t2 heq
        injection heq with h1 h2
        subst h1
        subst h2
        simp [hasCS] at hcs
      have hd : ¬dollar (c :: t) = true := by
        intro hdol
        rcases (dollar_iff _).mp hdol with hh | hh
        · exact absurd hh (by simp)
        · have hcnl : c = '\n' := by injection hh
          exact hnl c (List.mem_cons_self c t) hcnl
      have het : episodeTail (c :: t) = none := by
        rw [episodeTail_not_colon hshape, if_neg hd]
      have hsn : seasonTail (c :: t) = none := by
        rw [seasonTail_not_colon hshape, het]
        rfl
      rw [matchTitle, hsn]
      have hih := ih (fun x hx => hnl x (List.mem_cons_of_mem _ hx)) (hasCS_tail hcs)
      simp [hnl c (List.mem_cons_self c t), hih]

theorem hasCS_append (u v : List Char) :
    hasCS (u ++ ':' :: ' ' :: v) = true := by
  induction u with
  | nil => simp [hasCS]
  | cons a u ih =>
      rcases u with _ | ⟨b, u'⟩
      · simp [hasCS]
      · rw [List.cons_append]
        simp only [hasCS, List.cons_append] at ih ⊢
        simp [ih]

theorem hasCS_exists : ∀ m : List Char, hasCS m = true →
    ∃ u v, m = u ++ ':' :: ' ' :: v := by
  intro m
  induction m with
  | nil => intro h; exact absurd h (by simp [hasCS])
  | cons a t ih =>
      intro h
      rcases t with _ | ⟨b, t'⟩
      · exact absurd h (by simp [hasCS])
      · simp only [hasCS] at h
        rw [decide_eq_true_eq] at h
        rcases h with ⟨h1, h2⟩ | h2
        · subst h1; subst h2
          exact ⟨[], t', rfl⟩
        · obtain ⟨u, v, huv⟩ := ih h2
          exact ⟨a :: u, v, by rw [List.cons_append, ← huv]⟩

theorem hasCS_of_middle {p m q : List Char}
    (h : hasCS (p ++ m ++ q) = false) : hasCS m = false := by
  by_contra hb
  have hm : hasCS m = true := by
    revert hb
    cases hasCS m <;> simp
  obtain ⟨u, v, huv⟩ := hasCS_exists m hm
  subst huv
  have ht : hasCS (p ++ (u ++ ':' :: ' ' :: v) ++ q) = true := by
    have := hasCS_append (p ++ u) (v ++ q)
    simpa [List.append_assoc] using this
  rw [ht] at h
  exact absurd h (by simp)

theorem pyStrip_decomp (s : List Char) : ∃ p q, s = p ++ pyStrip s ++ q := by
  unfold pyStrip
  refine ⟨s.takeWhile isPySpace,
    ((s.dropWhile isPySpace).reverse.takeWhile isPySpace).reverse, ?_⟩
  conv_lhs => rw [← List.takeWhile_append_dropWhile isPySpace s]
  rw [List.append_assoc]
  congr 1
  conv_lhs => rw [← List.reverse_reverse (s.dropWhile isPySpace),
    ← List.takeWhile_append_dropWhile isPySpace (s.dropWhile isPySpace).reverse]
  rw [List.reverse_append]

theorem mem_pyStrip {c : Char} {s : List Char} (h : c ∈ pyStrip s) : c ∈ s := by
  obtain ⟨p, q, hd⟩ := pyStrip_decomp s
  rw [hd]
  simp [h]

theorem hasCS_pyStrip {s : List Char} (h : hasCS s = false) :
    hasCS (pyStrip s) = false := by
  obtain ⟨p, q, hd⟩ := pyStrip_decomp s
  rw [hd] at h
  exact hasCS_of_middle h

theorem dropWhile_dropWhile (f : Char → Bool) (l : List Char) :
    List.dropWhile f (List.dropWhile f l) = List.dropWhile f l := by
  induction l with
  | nil => rfl
  | cons c t ih =>
      by_cases h : f c
      · rw [List.dropWhile_cons_of_pos h]
        exact ih
      · rw [List.dropWhile_cons_of_neg h, List.dropWhile_cons_of_neg h]

theorem dropWhile_clean_of_decomp {f : Char → Bool} {a b r : List Char}
    (ha : List.dropWhile f a = a) (hab : a = b ++ r) :
    List.dropWhile f b = b := by
  rcases b with _ | ⟨c, t⟩
  · rfl
  · by_cases h : f c
    · exfalso
      rw [hab, List.cons_append, List.dropWhile_cons_of_pos h] at ha
      have hlen := congrArg List.length ha
      have hle := (List.dropWhile_sublist (l := t ++ r) f).length_le
      rw [hlen] at hle
      simp at hle
    · rw [List.dropWhile_cons_of_neg h]

theorem pyStrip_idem (s : List Char) : pyStrip (pyStrip s) = pyStrip s := by
  have ha : List.dropWhile isPySpace (List.dropWhile isPySpace s)
      = List.dropWhile isPySpace s := dropWhile_dropWhile _ _
  have hd : List.dropWhile isPySpace s
      = pyStrip s ++ ((s.dropWhile isPySpace).reverse.takeWhile isPySpace).reverse := by
    conv_lhs => rw [← List.reverse_reverse (s.dropWhile isPySpace),
      ← List.takeWhile_append_dropWhile isPySpace (s.dropWhile isPySpace).reverse]
    rw [List.reverse_append]
    rfl
  have h1 : List.dropWhile isPySpace (pyStrip s) = pyStrip s :=
    dropWhile_clean_of_decomp ha hd
  have h2 : List.dropWhile isPySpace (pyStrip s).reverse = (pyStrip s).reverse := by
    unfold pyStrip
    rw [List.reverse_reverse]
    exact dropWhile_dropWhile _ _
  show ((List.dropWhile isPySpace (pyStrip s)).reverse.dropWhile isPySpace).reverse
      = pyStrip s
  rw [h1, h2, List.reverse_reverse]

/-- C4: `extract_show_info` is idempotent on the show name it extracts:
for every title, re-parsing the extracted show name returns that show name
unchanged, with no season and no episode. -/
theorem parse_title_idempotent (title : List Char) :
    extract_show_info (extract_show_info title).1
      = ((extract_show_info title).1, none, none) := by
  rcases h : matchTitle title with _ | ⟨g1, g2, g3⟩
  · simp [extract_show_info, h]
  · have hg := matchTitle_g1 title g1 g2 g3 h
    have hnl : ∀ c ∈ pyStrip g1, ¬c = '\n' := fun c hc => hg.1 c (mem_pyStrip hc)
    have hcs : hasCS (pyStrip g1) = false := hasCS_pyStrip hg.2
    have hfull := matchTitle_full (pyStrip g1) hnl hcs
    simp [extract_show_info, h, hfull, pyStrip_idem]

end Netflix
